import Mathlib

/-!
Shallow embedding of the max_cut repository's core logic
(src/max_cut_qubo.py, src/max_cut_ising.py, src/max_cut.py):
QUBO construction, Ising construction, solution decoding and cut scoring.

Python dicts are modelled as insertion-ordered association lists
(`Dict`), the networkx graph container (an external collaborator per the
spec, §1/§6) as a structure recording node and edge insertion order, and
Python's `KeyError` as `Option.none` propagation.
-/

set_option linter.unusedVariables false

namespace MaxCut

abbrev Node := Nat

abbrev Edge := Node × Node

/-- Model of a Python dict: an association list in key-insertion order.
Assigning to an existing key updates the value in place; assigning to a
fresh key appends at the end, exactly as CPython dicts behave. -/
abbrev Dict (K V : Type) := List (K × V)

/-- Lookup `d[k]`, returning `none` where Python raises `KeyError`. -/
def dictGet? {K V : Type} [DecidableEq K] : Dict K V → K → Option V
  | [], _ => none
  | kv :: d, k => if kv.1 = k then some kv.2 else dictGet? d k

/-- Membership test `k in d`. -/
def dictHas {K V : Type} [DecidableEq K] (d : Dict K V) (k : K) : Bool :=
  (dictGet? d k).isSome

/-- Assignment `d[k] = v`. -/
def dictInsert {K V : Type} [DecidableEq K] : Dict K V → K → V → Dict K V
  | [], k, v => [(k, v)]
  | kv :: d, k, v => if kv.1 = k then (k, v) :: d else kv :: dictInsert d k v

/-- Python's `dict.fromkeys(ks, v)`. -/
def fromkeys {K V : Type} [DecidableEq K] (ks : List K) (v : V) : Dict K V :=
  ks.foldl (fun d k => dictInsert d k v) []

/-- Whether two edge tuples denote the same undirected edge. -/
def sameEdge (e f : Edge) : Bool := e == f || e == (f.2, f.1)

/-- Model of a networkx `nx.Graph` built by `add_edges_from` (an external
collaborator, excluded from the core by the spec): nodes are recorded in
first-insertion order, and each undirected edge is recorded once, in
first-insertion order, with the orientation of its first addition. -/
structure NxGraph where
  nodes : List Node
  edges : List Edge

/-- Adding a node to a networkx graph: no-op when already present. -/
def addNode (ns : List Node) (n : Node) : List Node :=
  if n ∈ ns then ns else ns ++ [n]

/-- Adding one edge: `G.add_edge(u, v)` registers both endpoints as nodes
and records the edge unless the same undirected edge is already present. -/
def addEdge (G : NxGraph) (e : Edge) : NxGraph :=
  { nodes := addNode (addNode G.nodes e.1) e.2
    edges := if G.edges.any (fun f => sameEdge f e) then G.edges
             else G.edges ++ [e] }

/-- `create_graph(edges)` (max_cut_qubo.py lines 30-42 and
max_cut_ising.py lines 30-42): `nx.Graph()` followed by
`G.add_edges_from(edges)`. -/
def create_graph (edges : List Edge) : NxGraph :=
  edges.foldl addEdge { nodes := [], edges := [] }

/-- The statement `if x in d: d[x] += 1` of `get_qubo`
(max_cut_qubo.py lines 62-65): a silent no-op on a missing key. -/
def bump (d : Dict Node Nat) (x : Node) : Dict Node Nat :=
  match dictGet? d x with
  | some c => dictInsert d x (c + 1)
  | none => d

/-- The statement `if x in edge_dict: edge_dict[x] += 1 else: edge_dict[x] = 1`
of `get_ising` (max_cut_ising.py lines 66-73): lazily registers an unseen
key at count 1. -/
def bumpAdd (d : Dict Node Nat) (x : Node) : Dict Node Nat :=
  match dictGet? d x with
  | some c => dictInsert d x (c + 1)
  | none => dictInsert d x 1

/-- One iteration of the per-node edge counting in `get_qubo`
(max_cut_qubo.py lines 62-65): both endpoints bumped in sequence. -/
def quboDegStep (d : Dict Node Nat) (e : Edge) : Dict Node Nat :=
  bump (bump d e.1) e.2

/-- One iteration of the per-node edge counting in `get_ising`
(max_cut_ising.py lines 66-73): both endpoints bumped in sequence. -/
def isingDegStep (d : Dict Node Nat) (e : Edge) : Dict Node Nat :=
  bumpAdd (bumpAdd d e.1) e.2

/-- The dict `d` of `get_qubo` (max_cut_qubo.py lines 51-65): seeded by
`dict.fromkeys(nodes, 0)` and folded over `G.edges`. The source updates
it inside the same loop that writes the quadratic terms of `Q`; the two
accumulators are independent, so the counting is factored out here. -/
def quboDegrees (nodes : List Node) (edges : List Edge) : Dict Node Nat :=
  ((create_graph edges).edges).foldl quboDegStep (fromkeys nodes 0)

/-- The dict `edge_dict` of `get_ising` (max_cut_ising.py lines 58-73),
factored out of the loop over `G.edges` exactly as `quboDegrees` is. -/
def isingDegrees (nodes : List Node) (edges : List Edge) : Dict Node Nat :=
  ((create_graph edges).edges).foldl isingDegStep (fromkeys nodes 0)

/-- `get_qubo(nodes, edges)` (max_cut_qubo.py lines 44-71), with the
global graph `G` it reads instantiated as `create_graph edges`, as in the
script's main section. `Q[(i, j)] = 2` for each `(i, j)` in `G.edges`,
then `Q[(i, i)] = -1 * d[i]` for each `i` in `G.nodes`; the `d[i]` lookup
raises `KeyError` (here: yields `none`) when `i` is not a key of `d`. -/
def get_qubo (nodes : List Node) (edges : List Edge) : Option (Dict Edge Int) :=
  let G := create_graph edges
  let d := quboDegrees nodes edges
  let Q := G.edges.foldl (fun Q e => dictInsert Q e 2) []
  G.nodes.foldlM (fun Q i =>
    (dictGet? d i).map (fun di : Nat => dictInsert Q (i, i) (-(di : Int)))) Q

/-- Body of `get_ising` (max_cut_ising.py lines 54-78) with the penalty
weight `gamma` abstracted as a parameter: `J[(u, v)] = gamma / 4` for each
edge of `G`, then `h[n] = -1 * (0.5) + (gamma * (edge_dict[n] * 0.25))`
for each `n` in `G.nodes`. All coefficient values are dyadic rationals,
so the Python float arithmetic is exact and modelled in `ℚ`. -/
def get_ising_gamma (gamma : ℚ) (nodes : List Node) (edges : List Edge) :
    Option (Dict Node ℚ × Dict Edge ℚ) :=
  let G := create_graph edges
  let edge_dict := isingDegrees nodes edges
  let J := G.edges.foldl (fun J e => dictInsert J e (gamma / 4)) []
  (G.nodes.foldlM (fun h n =>
    (dictGet? edge_dict n).map (fun c : Nat =>
      dictInsert h n (-1 * (1 / 2 : ℚ) + gamma * ((c : ℚ) * (1 / 4))))) []).map
    (fun h => (h, J))

/-- `get_ising(nodes, edges)` (max_cut_ising.py lines 44-78): the source
fixes `gamma = 3` at line 52 before the body. -/
def get_ising (nodes : List Node) (edges : List Edge) :
    Option (Dict Node ℚ × Dict Edge ℚ) :=
  get_ising_gamma 3 nodes edges

/-- `get_ising()` of src/max_cut.py (lines 38-51), the second Ising
builder of the repository. It takes no parameters and reads the module
graph `G`, here instantiated as `create_graph edges` as in that script's
main section: `J[(u, v)] = 0.5` for every edge of `G`, then `h[n] = 0`
for every node of `G`; no degree counting and no penalty weight appear. -/
def get_ising_mc (edges : List Edge) : Dict Node ℚ × Dict Edge ℚ :=
  let G := create_graph edges
  let J := G.edges.foldl (fun J e => dictInsert J e (1 / 2 : ℚ)) []
  let h := G.nodes.foldl (fun h n => dictInsert h n (0 : ℚ)) []
  (h, J)

/-- The decode step `result = list(sample_set.first.sample[i] for i in nodes)`
(max_cut_qubo.py line 119, max_cut.py line 112): reads the solver sample
dict at every node, raising `KeyError` (here `none`) at a missing node. -/
def resultList (sample : Dict Node Int) : List Node → Option (List Int)
  | [] => some []
  | n :: ns =>
    match dictGet? sample n with
    | none => none
    | some v => (resultList sample ns).map (fun r => v :: r)

/-- One pass of the partition loop (max_cut_qubo.py lines 122-126): at
index `i`, append `i` to `set_1` when `result[i] == 1`, else to `set_2`.
Note the source appends the index `i`, not the node at position `i`. -/
def splitStep (s : List Nat × List Nat) (iv : Nat × Int) : List Nat × List Nat :=
  if iv.2 = 1 then (s.1 ++ [iv.1], s.2) else (s.1, s.2 ++ [iv.1])

/-- The loop `for i in range(len(result))` building `set_1` and `set_2`
(max_cut_qubo.py lines 120-126, max_cut.py lines 113-118). -/
def splitSets (result : List Int) : List Nat × List Nat :=
  (List.enumFrom 0 result).foldl splitStep ([], [])

/-- The full solution decoder: read the sample at every node, then split
into `(set_1, set_2)`. -/
def decodeSets (sample : Dict Node Int) (nodes : List Node) :
    Option (List Nat × List Nat) :=
  (resultList sample nodes).map splitSets

/-- The `max_cuts` accumulation (max_cut_qubo.py lines 130-135,
max_cut.py lines 121-126): one pass over the edge list, adding 1 when
`i in set_1 and j in set_2`, else 1 when `j in set_1 and i in set_2`. -/
def max_cuts (edges : List Edge) (set_1 set_2 : List Nat) : Nat :=
  edges.foldl (fun acc e =>
    if e.1 ∈ set_1 ∧ e.2 ∈ set_2 then acc + 1
    else if e.2 ∈ set_1 ∧ e.1 ∈ set_2 then acc + 1
    else acc) 0

/-- Cut count of the decoded partition of a sample: the composition
`CutScorer ∘ SolutionDecoder` of the spec's data flow (§2). -/
def cutOfSample (edges : List Edge) (nodes : List Node)
    (sample : Dict Node Int) : Option Nat :=
  (decodeSets sample nodes).map (fun s => max_cuts edges s.1 s.2)

/-- Global bit-flip of an assignment (0 ↔ 1), the transformation claim C9
and spec §8 quantify over. -/
def flipDict (sample : Dict Node Int) : Dict Node Int :=
  sample.map (fun kv => (kv.1, 1 - kv.2))

/-- Number of occurrences of `n` as an endpoint in an edge list: the
degree of `n`, counting each endpoint slot separately. -/
def degCount (n : Node) : List Edge → Nat
  | [] => 0
  | e :: es => ((if e.1 = n then 1 else 0) + if e.2 = n then 1 else 0) + degCount n es

/-- Spec-side predicate, transcribed from §4.6: exactly one endpoint of
the edge lies in `set_1` and the other lies in `set_2`. -/
def specCrossing (e : Edge) (set_1 set_2 : List Nat) : Prop :=
  (e.1 ∈ set_1 ∧ e.2 ∈ set_2 ∧ e.1 ∉ set_2 ∧ e.2 ∉ set_1) ∨
  (e.2 ∈ set_1 ∧ e.1 ∈ set_2 ∧ e.2 ∉ set_2 ∧ e.1 ∉ set_1)

instance (e : Edge) (s1 s2 : List Nat) : Decidable (specCrossing e s1 s2) := by
  unfold specCrossing; infer_instance

/-- Spec-side cut count, transcribed from §4.6: the number of edges
crossing the partition. -/
def specCutCount (edges : List Edge) (set_1 set_2 : List Nat) : Nat :=
  edges.countP (fun e => decide (specCrossing e set_1 set_2))

/-! Basic facts about the dict model. -/

theorem dictGet?_insert_self {K V : Type} [DecidableEq K] (d : Dict K V) (k : K) (v : V) :
    dictGet? (dictInsert d k v) k = some v := by
  induction d with
  | nil => simp [dictInsert, dictGet?]
  | cons kv d ih =>
    by_cases h : kv.1 = k <;> simp [dictInsert, dictGet?, h, ih]

theorem dictGet?_insert_ne {K V : Type} [DecidableEq K] (d : Dict K V) (k x : K) (v : V)
    (hne : x ≠ k) : dictGet? (dictInsert d k v) x = dictGet? d x := by
  have hkx : ¬k = x := Ne.symm hne
  induction d with
  | nil => simp [dictInsert, dictGet?, hkx]
  | cons kv d ih =>
    by_cases h : kv.1 = k
    · simp [dictInsert, dictGet?, h, hkx]
    · by_cases h2 : kv.1 = x <;> simp [dictInsert, dictGet?, h, h2, hne, ih]

theorem dictHas_eq_false_iff {K V : Type} [DecidableEq K] (d : Dict K V) (k : K) :
    dictHas d k = false ↔ ∀ kv ∈ d, kv.1 ≠ k := by
  induction d with
  | nil => simp [dictHas, dictGet?]
  | cons kv d ih =>
    by_cases h : kv.1 = k <;> simp [dictHas, dictGet?, h] at ih ⊢ <;> simp [ih, h]

theorem dictInsert_of_not_has {K V : Type} [DecidableEq K] (d : Dict K V) (k : K) (v : V)
    (h : dictHas d k = false) : dictInsert d k v = d ++ [(k, v)] := by
  induction d with
  | nil => simp [dictInsert]
  | cons kv d ih =>
    rw [dictHas_eq_false_iff] at h ih
    have hk : kv.1 ≠ k := h kv (by simp)
    simp only [dictInsert, if_neg hk, List.cons_append, List.cons.injEq, true_and]
    exact ih (fun kv' h' => h kv' (by simp [h']))

theorem dictGet?_fromkeys_aux {K V : Type} [DecidableEq K] (v : V) :
    ∀ (ks : List K) (d : Dict K V) (n : K),
      dictGet? (ks.foldl (fun d k => dictInsert d k v) d) n
        = if n ∈ ks then some v else dictGet? d n := by
  intro ks
  induction ks with
  | nil => simp
  | cons k ks ih =>
    intro d n
    by_cases hn : n ∈ ks
    · simp [List.foldl_cons, ih, hn]
    · by_cases hk : n = k
      · subst hk
        simp [List.foldl_cons, ih, hn, dictGet?_insert_self]
      · simp [List.foldl_cons, ih, hn, hk, dictGet?_insert_ne _ _ _ _ hk]

theorem dictGet?_fromkeys {K V : Type} [DecidableEq K] (ks : List K) (v : V) (n : K) :
    dictGet? (fromkeys ks v) n = if n ∈ ks then some v else none := by
  simp [fromkeys, dictGet?_fromkeys_aux, dictGet?]

/-! Lookup behaviour of the two degree-counting loops. -/

theorem dictGet?_bump (d : Dict Node Nat) (x n : Node) :
    dictGet? (bump d x) n
      = (dictGet? d n).map (fun c => c + if x = n then 1 else 0) := by
  unfold bump
  by_cases hx : x = n
  · subst hx
    cases h : dictGet? d x <;> simp [h, dictGet?_insert_self]
  · cases h : dictGet? d x <;>
      cases hn : dictGet? d n <;>
        simp [h, hn, hx, dictGet?_insert_ne _ _ _ _ (Ne.symm hx)]

theorem dictGet?_bumpAdd_of_some (d : Dict Node Nat) (x n : Node) (c : Nat)
    (h : dictGet? d n = some c) :
    dictGet? (bumpAdd d x) n = some (c + if x = n then 1 else 0) := by
  unfold bumpAdd
  by_cases hx : x = n
  · subst hx
    simp [h, dictGet?_insert_self]
  · cases h2 : dictGet? d x <;>
      simp [h2, hx, h, dictGet?_insert_ne _ _ _ _ (Ne.symm hx)]

theorem quboDegStep_lookup (d : Dict Node Nat) (e : Edge) (n : Node) :
    dictGet? (quboDegStep d e) n
      = (dictGet? d n).map
          (fun c => c + ((if e.1 = n then 1 else 0) + if e.2 = n then 1 else 0)) := by
  unfold quboDegStep
  rw [dictGet?_bump, dictGet?_bump, Option.map_map]
  cases dictGet? d n <;> simp [Nat.add_assoc]

theorem isingDegStep_lookup_of_some (d : Dict Node Nat) (e : Edge) (n : Node) (c : Nat)
    (h : dictGet? d n = some c) :
    dictGet? (isingDegStep d e) n
      = some (c + ((if e.1 = n then 1 else 0) + if e.2 = n then 1 else 0)) := by
  unfold isingDegStep
  rw [dictGet?_bumpAdd_of_some _ _ _ _ (dictGet?_bumpAdd_of_some _ _ _ _ h)]
  ring_nf

theorem quboDeg_foldl_lookup :
    ∀ (es : List Edge) (d : Dict Node Nat) (n : Node),
      dictGet? (es.foldl quboDegStep d) n
        = (dictGet? d n).map (fun c => c + degCount n es) := by
  intro es
  induction es with
  | nil => intro d n; cases h : dictGet? d n <;> simp [degCount, h]
  | cons e es ih =>
    intro d n
    rw [List.foldl_cons, ih, quboDegStep_lookup]
    cases h : dictGet? d n <;> simp [degCount, h, Nat.add_assoc]

theorem isingDeg_foldl_lookup_of_some :
    ∀ (es : List Edge) (d : Dict Node Nat) (n : Node) (c : Nat),
      dictGet? d n = some c →
      dictGet? (es.foldl isingDegStep d) n = some (c + degCount n es) := by
  intro es
  induction es with
  | nil => intro d n c h; simp [degCount, h]
  | cons e es ih =>
    intro d n c h
    rw [List.foldl_cons, ih _ _ _ (isingDegStep_lookup_of_some _ _ _ _ h)]
    simp [degCount, Nat.add_assoc]

/-! Characterisation of the modelled networkx graph construction. -/

theorem mem_addNode (ns : List Node) (n m : Node) :
    n ∈ addNode ns m ↔ n ∈ ns ∨ n = m := by
  unfold addNode
  by_cases h : m ∈ ns
  · simp only [if_pos h]
    constructor
    · exact Or.inl
    · rintro (h' | rfl)
      · exact h'
      · exact h
  · simp [if_neg h]

theorem nodup_addNode (ns : List Node) (m : Node) (h : ns.Nodup) :
    (addNode ns m).Nodup := by
  unfold addNode
  by_cases hm : m ∈ ns <;> simp [hm, List.nodup_append, h]

theorem mem_nodes_foldl :
    ∀ (es : List Edge) (G : NxGraph) (n : Node),
      n ∈ (es.foldl addEdge G).nodes
        ↔ n ∈ G.nodes ∨ ∃ e ∈ es, e.1 = n ∨ e.2 = n := by
  intro es
  induction es with
  | nil => simp
  | cons e es ih =>
    intro G n
    rw [List.foldl_cons, ih]
    simp only [addEdge, mem_addNode, List.mem_cons]
    constructor
    · rintro (((h | h) | h) | ⟨f, hf, h⟩)
      · exact Or.inl h
      · exact Or.inr ⟨e, Or.inl rfl, Or.inl h.symm⟩
      · exact Or.inr ⟨e, Or.inl rfl, Or.inr h.symm⟩
      · exact Or.inr ⟨f, Or.inr hf, h⟩
    · rintro (h | ⟨f, (rfl | hf), h⟩)
      · exact Or.inl (Or.inl (Or.inl h))
      · rcases h with h | h
        · exact Or.inl (Or.inl (Or.inr h.symm))
        · exact Or.inl (Or.inr h.symm)
      · exact Or.inr ⟨f, hf, h⟩

theorem mem_nodes_create_graph (es : List Edge) (n : Node) :
    n ∈ (create_graph es).nodes ↔ ∃ e ∈ es, e.1 = n ∨ e.2 = n := by
  rw [create_graph, mem_nodes_foldl]
  simp

theorem nodup_nodes_foldl :
    ∀ (es : List Edge) (G : NxGraph), G.nodes.Nodup → (es.foldl addEdge G).nodes.Nodup := by
  intro es
  induction es with
  | nil => intro G h; exact h
  | cons e es ih =>
    intro G h
    exact ih _ (nodup_addNode _ _ (nodup_addNode _ _ h))

theorem nodup_nodes_create_graph (es : List Edge) : (create_graph es).nodes.Nodup :=
  nodup_nodes_foldl es _ List.nodup_nil

theorem mem_edges_foldl :
    ∀ (es : List Edge) (G : NxGraph) (f : Edge),
      f ∈ (es.foldl addEdge G).edges → f ∈ G.edges ∨ f ∈ es := by
  intro es
  induction es with
  | nil => intro G f h; exact Or.inl h
  | cons e es ih =>
    intro G f h
    rcases ih _ _ h with h' | h'
    · simp only [addEdge] at h'
      split at h'
      · exact Or.inl h'
      · rcases List.mem_append.mp h' with h'' | h''
        · exact Or.inl h''
        · simp at h''
          exact Or.inr (by simp [h''])
    · exact Or.inr (List.mem_cons_of_mem _ h')

theorem mem_edges_create_graph (es : List Edge) (f : Edge)
    (h : f ∈ (create_graph es).edges) : f ∈ es := by
  rcases mem_edges_foldl es _ f h with h' | h'
  · simp [create_graph] at h'
  · exact h'

theorem edges_foldl_of_fresh :
    ∀ (es : List Edge) (G : NxGraph),
      (∀ e ∈ es, ∀ f ∈ G.edges, sameEdge f e = false) →
      es.Pairwise (fun a b => sameEdge a b = false) →
      (es.foldl addEdge G).edges = G.edges ++ es := by
  intro es
  induction es with
  | nil => intro G _ _; simp
  | cons e es ih =>
    intro G hfresh hnd
    have hany : G.edges.any (fun f => sameEdge f e) = false := by
      rw [List.any_eq_false]
      intro f hf
      simp [hfresh e (by simp) f hf]
    have hG' : (addEdge G e).edges = G.edges ++ [e] := by
      simp [addEdge, hany]
    rw [List.foldl_cons, ih (addEdge G e) ?_ (List.Pairwise.of_cons hnd), hG',
      List.append_assoc, List.singleton_append]
    intro e' he' f hf
    rw [hG'] at hf
    rcases List.mem_append.mp hf with hf' | hf'
    · exact hfresh e' (List.mem_cons_of_mem _ he') f hf'
    · simp at hf'
      subst hf'
      exact (List.pairwise_cons.mp hnd).1 e' he'

theorem edges_create_graph_of_nodup (es : List Edge)
    (hnd : es.Pairwise (fun a b => sameEdge a b = false)) :
    (create_graph es).edges = es := by
  rw [create_graph, edges_foldl_of_fresh es _ (by intro e _ f hf; simp at hf) hnd]
  simp

/-! Generic facts about folding fresh dict insertions and about
`Option`-valued folds. -/

theorem foldl_dictInsert_eq_append {A K V : Type} [DecidableEq K]
    (κ : A → K) (f : A → V) :
    ∀ (l : List A) (d : Dict K V),
      (∀ a ∈ l, dictHas d (κ a) = false) →
      l.Pairwise (fun a b => κ a ≠ κ b) →
      l.foldl (fun d a => dictInsert d (κ a) (f a)) d
        = d ++ l.map (fun a => (κ a, f a)) := by
  intro l
  induction l with
  | nil => simp
  | cons a l ih =>
    intro d hfresh hnd
    have hd' : dictInsert d (κ a) (f a) = d ++ [(κ a, f a)] :=
      dictInsert_of_not_has d _ _ (hfresh a (by simp))
    rw [List.foldl_cons, hd', ih _ ?_ (List.Pairwise.of_cons hnd)]
    · simp
    · intro b hb
      rw [dictHas_eq_false_iff]
      intro kv hkv
      rcases List.mem_append.mp hkv with h | h
      · exact (dictHas_eq_false_iff d (κ b)).mp (hfresh b (List.mem_cons_of_mem _ hb)) kv h
      · simp at h
        rw [h]
        exact (List.pairwise_cons.mp hnd).1 b hb

theorem foldlM_map_eq_foldl {α β S : Type} (g : α → Option β) (h : S → α → β → S)
    (G : α → β) :
    ∀ (l : List α) (s : S), (∀ a ∈ l, g a = some (G a)) →
      l.foldlM (fun s a => (g a).map (h s a)) s
        = some (l.foldl (fun s a => h s a (G a)) s) := by
  intro l
  induction l with
  | nil => intro s _; rfl
  | cons a l ih =>
    intro s hsome
    rw [List.foldlM_cons, hsome a (by simp)]
    exact ih _ (fun b hb => hsome b (List.mem_cons_of_mem _ hb))

theorem foldlM_map_eq_none {α β S : Type} (g : α → Option β) (h : S → α → β → S) :
    ∀ (l : List α) (s : S), (∃ a ∈ l, g a = none) →
      l.foldlM (fun s a => (g a).map (h s a)) s = none := by
  intro l
  induction l with
  | nil => simp
  | cons a l ih =>
    intro s hex
    rw [List.foldlM_cons]
    cases hga : g a with
    | none => rfl
    | some v =>
      rcases hex with ⟨b, hb, hgb⟩
      rcases List.mem_cons.mp hb with rfl | hb'
      · rw [hga] at hgb; cases hgb
      · exact ih _ ⟨b, hb', hgb⟩

/-! Closed forms for the two model builders on well-formed graphs
(every edge endpoint listed among the nodes, no self-loops, no repeated
undirected edge — the graph invariants of spec §3). -/

theorem ne_of_sameEdge_false {a b : Edge} (h : sameEdge a b = false) : a ≠ b := by
  intro heq
  subst heq
  simp [sameEdge] at h

theorem get_qubo_eq (nodes : List Node) (edges : List Edge)
    (hwf : ∀ e ∈ edges, e.1 ∈ nodes ∧ e.2 ∈ nodes)
    (hsl : ∀ e ∈ edges, e.1 ≠ e.2)
    (hnd : edges.Pairwise (fun a b => sameEdge a b = false)) :
    get_qubo nodes edges
      = some (edges.map (fun e => (e, (2 : Int)))
          ++ (create_graph edges).nodes.map
              (fun n => ((n, n), -(degCount n edges : Int)))) := by
  have hE := edges_create_graph_of_nodup edges hnd
  have hneq : edges.Pairwise (fun a b => a ≠ b) :=
    hnd.imp ne_of_sameEdge_false
  have hQ0 : edges.foldl (fun Q e => dictInsert Q e (2 : Int)) []
      = edges.map (fun e => (e, (2 : Int))) := by
    have h := foldl_dictInsert_eq_append (fun e : Edge => e) (fun _ => (2 : Int))
      edges [] (by intro a _; rfl) hneq
    simpa using h
  have hdeg : ∀ n ∈ (create_graph edges).nodes,
      dictGet? (quboDegrees nodes edges) n = some (degCount n edges) := by
    intro n hn
    rcases (mem_nodes_create_graph edges n).mp hn with ⟨e, he, hend⟩
    have hmem : n ∈ nodes := by
      rcases hend with h | h
      · exact h ▸ (hwf e he).1
      · exact h ▸ (hwf e he).2
    rw [quboDegrees, hE, quboDeg_foldl_lookup, dictGet?_fromkeys]
    simp [hmem]
  have hfresh : ∀ n ∈ (create_graph edges).nodes,
      dictHas (edges.map (fun e => (e, (2 : Int)))) (n, n) = false := by
    intro n hn
    rw [dictHas_eq_false_iff]
    intro kv hkv
    rcases List.mem_map.mp hkv with ⟨e, he, rfl⟩
    intro hcontra
    exact hsl e he (by rw [show e = (n, n) from hcontra])
  have hpair : (create_graph edges).nodes.Pairwise
      (fun n m => ((n, n) : Edge) ≠ (m, m)) :=
    (nodup_nodes_create_graph edges).imp
      (fun h hc => h (congrArg Prod.fst hc))
  show ((create_graph edges).nodes.foldlM (fun Q i =>
        (dictGet? (quboDegrees nodes edges) i).map
          (fun di : Nat => dictInsert Q (i, i) (-(di : Int))))
      ((create_graph edges).edges.foldl (fun Q e => dictInsert Q e 2) [])) = _
  rw [hE, hQ0,
    foldlM_map_eq_foldl (fun i => dictGet? (quboDegrees nodes edges) i)
      (fun Q i di => dictInsert Q (i, i) (-(di : Int))) (fun n => degCount n edges)
      _ _ hdeg,
    foldl_dictInsert_eq_append (fun n : Node => ((n, n) : Edge))
      (fun n => -(degCount n edges : Int)) _ _ hfresh hpair]

theorem get_ising_gamma_eq (gamma : ℚ) (nodes : List Node) (edges : List Edge)
    (hwf : ∀ e ∈ edges, e.1 ∈ nodes ∧ e.2 ∈ nodes)
    (hnd : edges.Pairwise (fun a b => sameEdge a b = false)) :
    get_ising_gamma gamma nodes edges
      = some ((create_graph edges).nodes.map
            (fun n => (n, -1 * (1 / 2 : ℚ) + gamma * ((degCount n edges : ℚ) * (1 / 4)))),
          edges.map (fun e => (e, gamma / 4))) := by
  have hE := edges_create_graph_of_nodup edges hnd
  have hneq : edges.Pairwise (fun a b => a ≠ b) :=
    hnd.imp ne_of_sameEdge_false
  have hJ : edges.foldl (fun J e => dictInsert J e (gamma / 4)) []
      = edges.map (fun e => (e, gamma / 4)) := by
    have h := foldl_dictInsert_eq_append (fun e : Edge => e) (fun _ => gamma / 4)
      edges [] (by intro a _; rfl) hneq
    simpa using h
  have hdeg : ∀ n ∈ (create_graph edges).nodes,
      dictGet? (isingDegrees nodes edges) n = some (degCount n edges) := by
    intro n hn
    rcases (mem_nodes_create_graph edges n).mp hn with ⟨e, he, hend⟩
    have hmem : n ∈ nodes := by
      rcases hend with h | h
      · exact h ▸ (hwf e he).1
      · exact h ▸ (hwf e he).2
    have h0 : dictGet? (fromkeys nodes (0 : Nat)) n = some 0 := by
      rw [dictGet?_fromkeys]; simp [hmem]
    rw [isingDegrees, hE]
    have h := isingDeg_foldl_lookup_of_some edges (fromkeys nodes 0) n 0 h0
    simpa using h
  have hpair : (create_graph edges).nodes.Pairwise (fun n m => n ≠ m) :=
    nodup_nodes_create_graph edges
  show ((create_graph edges).nodes.foldlM (fun h n =>
        (dictGet? (isingDegrees nodes edges) n).map
          (fun c : Nat => dictInsert h n (-1 * (1 / 2 : ℚ) + gamma * ((c : ℚ) * (1 / 4)))))
      []).map
      (fun h => (h, (create_graph edges).edges.foldl
        (fun J e => dictInsert J e (gamma / 4)) [])) = _
  rw [hE, hJ,
    foldlM_map_eq_foldl (fun n => dictGet? (isingDegrees nodes edges) n)
      (fun h n c => dictInsert h n (-1 * (1 / 2 : ℚ) + gamma * ((c : ℚ) * (1 / 4))))
      (fun n => degCount n edges) _ _ hdeg]
  have hins := foldl_dictInsert_eq_append (fun n : Node => n)
    (fun n => -1 * (1 / 2 : ℚ) + gamma * ((degCount n edges : ℚ) * (1 / 4)))
    (create_graph edges).nodes [] (by intro a _; rfl) hpair
  rw [hins]
  simp

theorem get_ising_mc_eq (edges : List Edge)
    (hnd : edges.Pairwise (fun a b => sameEdge a b = false)) :
    get_ising_mc edges
      = ((create_graph edges).nodes.map (fun n => (n, (0 : ℚ))),
         edges.map (fun e => (e, (1 / 2 : ℚ)))) := by
  have hE := edges_create_graph_of_nodup edges hnd
  have hneq : edges.Pairwise (fun a b => a ≠ b) :=
    hnd.imp ne_of_sameEdge_false
  have hJ : edges.foldl (fun J e => dictInsert J e (1 / 2 : ℚ)) []
      = edges.map (fun e => (e, (1 / 2 : ℚ))) := by
    have h := foldl_dictInsert_eq_append (fun e : Edge => e) (fun _ => (1 / 2 : ℚ))
      edges [] (by intro a _; rfl) hneq
    simpa using h
  have hh : (create_graph edges).nodes.foldl (fun h n => dictInsert h n (0 : ℚ)) []
      = (create_graph edges).nodes.map (fun n => (n, (0 : ℚ))) := by
    have h := foldl_dictInsert_eq_append (fun n : Node => n) (fun _ => (0 : ℚ))
      (create_graph edges).nodes [] (by intro a _; rfl) (nodup_nodes_create_graph edges)
    simpa using h
  show ((create_graph edges).nodes.foldl (fun h n => dictInsert h n (0 : ℚ)) [],
        (create_graph edges).edges.foldl (fun J e => dictInsert J e (1 / 2 : ℚ)) []) = _
  rw [hE, hJ, hh]

/-! Agreement of the two degree-counting loops (support for claim C6). -/

theorem dictHas_bumpAdd_of_has (d : Dict Node Nat) (x y : Node)
    (h : dictHas d y = true) : dictHas (bumpAdd d x) y = true := by
  unfold dictHas at h ⊢
  cases hy : dictGet? d y with
  | none => rw [hy] at h; cases h
  | some c => rw [dictGet?_bumpAdd_of_some d x y c hy]; rfl

theorem bump_eq_bumpAdd_of_has (d : Dict Node Nat) (x : Node)
    (h : dictHas d x = true) : bump d x = bumpAdd d x := by
  unfold dictHas at h
  unfold bump bumpAdd
  cases hx : dictGet? d x with
  | none => rw [hx] at h; cases h
  | some c => rfl

theorem quboDegStep_eq_isingDegStep (d : Dict Node Nat) (e : Edge)
    (h1 : dictHas d e.1 = true) (h2 : dictHas d e.2 = true) :
    quboDegStep d e = isingDegStep d e := by
  unfold quboDegStep isingDegStep
  rw [bump_eq_bumpAdd_of_has d e.1 h1,
    bump_eq_bumpAdd_of_has (bumpAdd d e.1) e.2 (dictHas_bumpAdd_of_has d e.1 e.2 h2)]

theorem isingDegStep_keeps_has (d : Dict Node Nat) (e : Edge) (y : Node)
    (h : dictHas d y = true) : dictHas (isingDegStep d e) y = true := by
  unfold isingDegStep
  exact dictHas_bumpAdd_of_has _ _ _ (dictHas_bumpAdd_of_has _ _ _ h)

theorem foldl_degSteps_eq :
    ∀ (es : List Edge) (d : Dict Node Nat),
      (∀ e ∈ es, dictHas d e.1 = true ∧ dictHas d e.2 = true) →
      es.foldl quboDegStep d = es.foldl isingDegStep d := by
  intro es
  induction es with
  | nil => intro d _; rfl
  | cons e es ih =>
    intro d h
    rw [List.foldl_cons, List.foldl_cons,
      quboDegStep_eq_isingDegStep d e (h e (by simp)).1 (h e (by simp)).2]
    exact ih _ (fun f hf =>
      ⟨isingDegStep_keeps_has d e f.1 (h f (List.mem_cons_of_mem _ hf)).1,
       isingDegStep_keeps_has d e f.2 (h f (List.mem_cons_of_mem _ hf)).2⟩)

/-! The cut scorer as a count over the edge list (support for claims C3
and C9). -/

theorem max_cuts_eq_countP (edges : List Edge) (s1 s2 : List Nat) :
    max_cuts edges s1 s2
      = edges.countP (fun e => decide ((e.1 ∈ s1 ∧ e.2 ∈ s2) ∨ (e.2 ∈ s1 ∧ e.1 ∈ s2))) := by
  have aux : ∀ (es : List Edge) (acc : Nat),
      es.foldl (fun acc e =>
        if e.1 ∈ s1 ∧ e.2 ∈ s2 then acc + 1
        else if e.2 ∈ s1 ∧ e.1 ∈ s2 then acc + 1
        else acc) acc
        = acc + es.countP (fun e => decide ((e.1 ∈ s1 ∧ e.2 ∈ s2) ∨ (e.2 ∈ s1 ∧ e.1 ∈ s2))) := by
    intro es
    induction es with
    | nil => intro acc; simp
    | cons e es ih =>
      intro acc
      rw [List.foldl_cons, List.countP_cons]
      by_cases h1 : e.1 ∈ s1 ∧ e.2 ∈ s2 <;>
        by_cases h2 : e.2 ∈ s1 ∧ e.1 ∈ s2 <;>
          simp [h1, h2, ih] <;> omega
  simpa [max_cuts] using aux edges 0

theorem max_cuts_swap (edges : List Edge) (s1 s2 : List Nat) :
    max_cuts edges s1 s2 = max_cuts edges s2 s1 := by
  rw [max_cuts_eq_countP, max_cuts_eq_countP]
  apply List.countP_congr
  intro e _
  simp only [decide_eq_true_eq]
  tauto

/-! Totality of decoding (support for claims C5 and C9). -/

theorem resultList_eq_none_iff (sample : Dict Node Int) :
    ∀ ns : List Node,
      resultList sample ns = none ↔ ∃ n ∈ ns, dictGet? sample n = none := by
  intro ns
  induction ns with
  | nil => simp [resultList]
  | cons n ns ih =>
    simp only [resultList]
    cases h : dictGet? sample n with
    | none =>
      constructor
      · intro _; exact ⟨n, by simp, h⟩
      · intro _; rfl
    | some v =>
      rw [Option.map_eq_none', ih]
      constructor
      · rintro ⟨m, hm, hget⟩; exact ⟨m, by simp [hm], hget⟩
      · rintro ⟨m, hm, hget⟩
        rcases List.mem_cons.mp hm with rfl | hm'
        · rw [h] at hget; cases hget
        · exact ⟨m, hm', hget⟩

/-! Behaviour of decoding under a global bit-flip (support for claim C9). -/

theorem dictGet?_flipDict (sample : Dict Node Int) (n : Node) :
    dictGet? (flipDict sample) n = (dictGet? sample n).map (fun v => 1 - v) := by
  induction sample with
  | nil => rfl
  | cons kv s ih =>
    by_cases h : kv.1 = n <;> simp [flipDict, dictGet?, h] <;> simpa [flipDict] using ih

theorem resultList_flipDict (sample : Dict Node Int) :
    ∀ ns : List Node,
      resultList (flipDict sample) ns
        = (resultList sample ns).map (List.map (fun v => 1 - v)) := by
  intro ns
  induction ns with
  | nil => rfl
  | cons n ns ih =>
    simp only [resultList, dictGet?_flipDict]
    cases h : dictGet? sample n with
    | none => simp
    | some v =>
      rw [ih]
      cases resultList sample ns <;> simp

theorem resultList_vals (sample : Dict Node Int) :
    ∀ (ns : List Node) (r : List Int),
      (∀ n ∈ ns, dictGet? sample n = some 0 ∨ dictGet? sample n = some 1) →
      resultList sample ns = some r → ∀ v ∈ r, v = 0 ∨ v = 1 := by
  intro ns
  induction ns with
  | nil =>
    intro r _ hr v hv
    simp only [resultList, Option.some.injEq] at hr
    rw [← hr] at hv
    cases hv
  | cons n ns ih =>
    intro r h hr
    simp only [resultList] at hr
    cases hn : dictGet? sample n with
    | none => rw [hn] at hr; cases hr
    | some v =>
      rw [hn] at hr
      rcases Option.map_eq_some'.mp hr with ⟨r', hr', rfl⟩
      intro w hw
      rcases List.mem_cons.mp hw with rfl | hw'
      · rcases h n (by simp) with h0 | h0 <;> rw [hn] at h0 <;>
          [exact Or.inl (Option.some.inj h0); exact Or.inr (Option.some.inj h0)]
      · exact ih r' (fun m hm => h m (List.mem_cons_of_mem _ hm)) hr' w hw'

theorem split_foldl_flip :
    ∀ res : List Int, (∀ v ∈ res, v = 0 ∨ v = 1) →
      ∀ (i : Nat) (a b : List Nat),
        (List.enumFrom i (res.map (fun v => 1 - v))).foldl splitStep (b, a)
          = Prod.swap ((List.enumFrom i res).foldl splitStep (a, b)) := by
  intro res
  induction res with
  | nil => intro _ i a b; rfl
  | cons v res ih =>
    intro hv i a b
    have hv' : ∀ w ∈ res, w = 0 ∨ w = 1 :=
      fun w hw => hv w (List.mem_cons_of_mem _ hw)
    rcases hv v (by simp) with rfl | rfl
    · simp only [List.map_cons, List.enumFrom, List.foldl_cons, splitStep]
      norm_num
      exact ih hv' (i + 1) a (b ++ [i])
    · simp only [List.map_cons, List.enumFrom, List.foldl_cons, splitStep]
      norm_num
      exact ih hv' (i + 1) (a ++ [i]) b

theorem splitSets_flip (res : List Int) (hv : ∀ v ∈ res, v = 0 ∨ v = 1) :
    splitSets (res.map (fun v => 1 - v)) = Prod.swap (splitSets res) :=
  split_foldl_flip res hv 0 [] []

theorem map_fst_pairing {A B : Type} (f : A → B) (l : List A) :
    (l.map (fun a => (a, f a))).map Prod.fst = l := by
  induction l with
  | nil => rfl
  | cons a l ih => simp [ih]

/-! Claims. -/

/-- Claim C1, counterexample to the claim as stated: on nodes `[0, 1, 2]`
and edges `[(0, 1)]`, node `2` is isolated, and `get_qubo` returns a
mapping with no diagonal entry `(2, 2)` at all, where the claim requires
a diagonal entry with value 0 for an isolated node. -/
theorem claim_C1_counterexample :
    (get_qubo [0, 1, 2] [(0, 1)]).map (fun Q => dictGet? Q (2, 2)) = some none := by
  decide

/-- Claim C1 (amended): for every well-formed graph (edge endpoints in
the node list, no self-loops, no repeated undirected edge) the QUBO
builder returns exactly one off-diagonal entry per edge with value 2,
followed by exactly one diagonal entry per node occurring in at least
one edge with value minus that node's degree, and no other entries; an
isolated node of the supplied node list receives no diagonal entry. -/
theorem claim_C1 (nodes : List Node) (edges : List Edge)
    (hwf : ∀ e ∈ edges, e.1 ∈ nodes ∧ e.2 ∈ nodes)
    (hsl : ∀ e ∈ edges, e.1 ≠ e.2)
    (hnd : edges.Pairwise (fun a b => sameEdge a b = false)) :
    get_qubo nodes edges
      = some (edges.map (fun e => (e, (2 : Int)))
          ++ (create_graph edges).nodes.map
              (fun n => ((n, n), -(degCount n edges : Int))))
    ∧ ∀ n, n ∈ (create_graph edges).nodes ↔ ∃ e ∈ edges, e.1 = n ∨ e.2 = n :=
  ⟨get_qubo_eq nodes edges hwf hsl hnd, fun n => mem_nodes_create_graph edges n⟩

/-- Claim C1, witness: the amended claim instantiated on a concrete
well-formed graph. -/
theorem claim_C1_witness :
    get_qubo [0, 1, 2] [(0, 1), (1, 2)]
      = some ([(0, 1), (1, 2)].map (fun e => (e, (2 : Int)))
          ++ (create_graph [(0, 1), (1, 2)]).nodes.map
              (fun n => ((n, n), -(degCount n [(0, 1), (1, 2)] : Int)))) :=
  (claim_C1 [0, 1, 2] [(0, 1), (1, 2)] (by decide) (by decide) (by decide)).1

/-- Claim C2, counterexample to the claim as stated, refuting it for
both cited implementations. First, in max_cut_ising.py's `get_ising`
(fixed `gamma = 3`), on nodes `[0, 1, 2]` and edges `[(0, 1)]` the
isolated node `2` receives no `h` entry at all, where the claim requires
`h[2] = -0.5`. Second, max_cut.py's `get_ising` matches the claimed
formulas for no weight at all: on the path `[(0, 1), (1, 2)]` its `J`
entry `1/2` forces `gamma = 2` (for any other weight `gamma / 4` already
differs), yet its `h` entry for the degree-2 node `1` is `0`, not the
`-0.5 + 2 * (2 * 0.25) = 0.5` the formula requires at `gamma = 2`. -/
theorem claim_C2_counterexample :
    ((get_ising [0, 1, 2] [(0, 1)]).map (fun hJ => dictGet? hJ.1 2) = some none)
    ∧ dictGet? (get_ising_mc [(0, 1), (1, 2)]).2 (0, 1) = some ((2 : ℚ) / 4)
    ∧ dictGet? (get_ising_mc [(0, 1), (1, 2)]).1 1 = some 0
    ∧ (0 : ℚ) ≠ -1 * (1 / 2 : ℚ) + 2 * ((degCount 1 [(0, 1), (1, 2)] : ℚ) * (1 / 4)) := by
  refine ⟨by decide, ?_, ?_, ?_⟩
  · rw [get_ising_mc_eq [(0, 1), (1, 2)] (by decide)]
    norm_num [dictGet?]
  · rw [get_ising_mc_eq [(0, 1), (1, 2)] (by decide),
      show (create_graph [(0, 1), (1, 2)]).nodes = [0, 1, 2] from by decide]
    simp [dictGet?]
  · rw [show degCount 1 [(0, 1), (1, 2)] = 2 from by decide]
    norm_num

/-- Claim C2 (amended): the repository has two Ising builders. For every
weight `gamma` and well-formed graph, the max_cut_ising.py builder
(configured at `gamma = 3`) returns `J[(u, v)] = gamma / 4` for every
edge and `h[n] = -0.5 + gamma * degree(n) * 0.25` for every node
occurring in at least one edge, nodes of the supplied list occurring in
no edge receiving no `h` entry; the max_cut.py builder instead returns
the constants `J[(u, v)] = 0.5` and `h[n] = 0` for every node occurring
in at least one edge, which no penalty weight reconciles with the
claimed formulas. -/
theorem claim_C2 (gamma : ℚ) (nodes : List Node) (edges : List Edge)
    (hwf : ∀ e ∈ edges, e.1 ∈ nodes ∧ e.2 ∈ nodes)
    (hnd : edges.Pairwise (fun a b => sameEdge a b = false)) :
    get_ising_gamma gamma nodes edges
      = some ((create_graph edges).nodes.map
            (fun n => (n, -1 * (1 / 2 : ℚ) + gamma * ((degCount n edges : ℚ) * (1 / 4)))),
          edges.map (fun e => (e, gamma / 4)))
    ∧ get_ising nodes edges = get_ising_gamma 3 nodes edges
    ∧ get_ising_mc edges
        = ((create_graph edges).nodes.map (fun n => (n, (0 : ℚ))),
           edges.map (fun e => (e, (1 / 2 : ℚ)))) :=
  ⟨get_ising_gamma_eq gamma nodes edges hwf hnd, rfl, get_ising_mc_eq edges hnd⟩

/-- Claim C2, witness: the amended claim instantiated at the
max_cut_ising.py configuration `gamma = 3` on a concrete well-formed
graph, together with the max_cut.py builder's constant output there. -/
theorem claim_C2_witness :
    (get_ising_gamma 3 [0, 1, 2] [(0, 1), (1, 2)]
      = some ((create_graph [(0, 1), (1, 2)]).nodes.map
            (fun n => (n, -1 * (1 / 2 : ℚ) + 3 * ((degCount n [(0, 1), (1, 2)] : ℚ) * (1 / 4)))),
          [(0, 1), (1, 2)].map (fun e => (e, (3 : ℚ) / 4))))
    ∧ get_ising_mc [(0, 1), (1, 2)]
        = ((create_graph [(0, 1), (1, 2)]).nodes.map (fun n => (n, (0 : ℚ))),
           [(0, 1), (1, 2)].map (fun e => (e, (1 / 2 : ℚ)))) :=
  ⟨(claim_C2 3 [0, 1, 2] [(0, 1), (1, 2)] (by decide) (by decide)).1,
   (claim_C2 3 [0, 1, 2] [(0, 1), (1, 2)] (by decide) (by decide)).2.2⟩

/-- Claim C3: for every edge list and every partition (disjoint sides),
the cut scorer returns exactly the number of edges with one endpoint in
`set_1` and the other in `set_2` (the spec-side count), a value computed
from the edge list and the partition alone. -/
theorem claim_C3 (edges : List Edge) (set_1 set_2 : List Nat)
    (hdisj : ∀ n, n ∈ set_1 → n ∉ set_2) :
    max_cuts edges set_1 set_2 = specCutCount edges set_1 set_2 := by
  rw [max_cuts_eq_countP, specCutCount]
  apply List.countP_congr
  intro e _
  simp only [specCrossing, decide_eq_true_eq]
  constructor
  · rintro (⟨ha, hd⟩ | ⟨hc, hb⟩)
    · exact Or.inl ⟨ha, hd, hdisj _ ha, fun hce => hdisj _ hce hd⟩
    · exact Or.inr ⟨hc, hb, hdisj _ hc, fun hae => hdisj _ hae hb⟩
  · rintro (⟨h1, h2, _, _⟩ | ⟨h1, h2, _, _⟩)
    · exact Or.inl ⟨h1, h2⟩
    · exact Or.inr ⟨h1, h2⟩

/-- Claim C3, witness: scorer and spec-side count agree on a concrete
edge list and disjoint partition. -/
theorem claim_C3_witness :
    max_cuts [(0, 1), (1, 2)] [1] [0, 2] = specCutCount [(0, 1), (1, 2)] [1] [0, 2] :=
  claim_C3 [(0, 1), (1, 2)] [1] [0, 2] (by decide)

/-- Claim C4, evaluation at the failing input: with node list `[5, 7]`
and the total assignment `{5 ↦ 1, 7 ↦ 0}`, the decoder appends the loop
index instead of the node label, producing `set_1 = [0]` and
`set_2 = [1]`; in particular node `5`, whose assigned value is 1, is not
in `set_1`, contradicting the claim (and spec §4.5). -/
theorem claim_C4_code_bug :
    decodeSets [(5, 1), (7, 0)] [5, 7] = some ([0], [1])
    ∧ ¬(5 : Nat) ∈ ([0] : List Nat) := by
  decide

/-- Claim C5: decoding fails (the `KeyError` path, modelling the
`MissingAssignment` condition) exactly when some node of the node list is
absent from the assignment, and succeeds exactly when the assignment
covers every node. -/
theorem claim_C5 (sample : Dict Node Int) (nodes : List Node) :
    (decodeSets sample nodes = none ↔ ∃ n ∈ nodes, dictGet? sample n = none)
    ∧ ((decodeSets sample nodes).isSome ↔ ∀ n ∈ nodes, (dictGet? sample n).isSome) := by
  have h1 : decodeSets sample nodes = none ↔ resultList sample nodes = none := by
    unfold decodeSets
    exact Option.map_eq_none'
  constructor
  · rw [h1]
    exact resultList_eq_none_iff sample nodes
  · rw [Option.isSome_iff_ne_none, Ne, h1, resultList_eq_none_iff]
    push_neg
    simp [Option.isSome_iff_ne_none]

/-- Claim C6: on identical graph input whose edge endpoints all appear in
the node list, the degree dictionaries computed inside the QUBO builder
and inside the Ising builder are identical, hence equal at every node. -/
theorem claim_C6 (nodes : List Node) (edges : List Edge)
    (hwf : ∀ e ∈ edges, e.1 ∈ nodes ∧ e.2 ∈ nodes) :
    quboDegrees nodes edges = isingDegrees nodes edges
    ∧ ∀ n, dictGet? (quboDegrees nodes edges) n = dictGet? (isingDegrees nodes edges) n := by
  have h : quboDegrees nodes edges = isingDegrees nodes edges := by
    unfold quboDegrees isingDegrees
    apply foldl_degSteps_eq
    intro e he
    have he' := mem_edges_create_graph edges e he
    have hm1 : e.1 ∈ nodes := (hwf e he').1
    have hm2 : e.2 ∈ nodes := (hwf e he').2
    unfold dictHas
    rw [dictGet?_fromkeys, dictGet?_fromkeys]
    simp [hm1, hm2]
  exact ⟨h, fun n => by rw [h]⟩

/-- Claim C6, witness: the two degree dictionaries coincide on a concrete
graph. -/
theorem claim_C6_witness :
    quboDegrees [0, 1, 2] [(0, 1), (1, 2)] = isingDegrees [0, 1, 2] [(0, 1), (1, 2)] :=
  (claim_C6 [0, 1, 2] [(0, 1), (1, 2)] (by decide)).1

/-- Claim C7, counterexample to the claim as stated: node `9` appears in
the supplied node list but in no edge, and the `h` mapping has no key
`9`, so its key set is not the full supplied node set. -/
theorem claim_C7_counterexample :
    (get_ising_gamma 2 [3, 4, 9] [(3, 4)]).map (fun hJ => dictHas hJ.1 9) = some false := by
  decide

/-- Claim C7 (amended): for every weight `gamma` and well-formed graph,
the `J` mapping's key list is exactly the edge list, and the `h`
mapping's key list is exactly the constructed graph's node list, i.e.
the nodes occurring in at least one edge; nodes of the supplied list
occurring in no edge are omitted. -/
theorem claim_C7 (gamma : ℚ) (nodes : List Node) (edges : List Edge)
    (hwf : ∀ e ∈ edges, e.1 ∈ nodes ∧ e.2 ∈ nodes)
    (hnd : edges.Pairwise (fun a b => sameEdge a b = false)) :
    (get_ising_gamma gamma nodes edges).map
        (fun hJ => (hJ.1.map Prod.fst, hJ.2.map Prod.fst))
      = some ((create_graph edges).nodes, edges)
    ∧ ∀ n, n ∈ (create_graph edges).nodes ↔ ∃ e ∈ edges, e.1 = n ∨ e.2 = n := by
  refine ⟨?_, fun n => mem_nodes_create_graph edges n⟩
  rw [get_ising_gamma_eq gamma nodes edges hwf hnd]
  simp only [Option.map_some']
  rw [map_fst_pairing, map_fst_pairing]

/-- Claim C7, witness: key sets of `h` and `J` on a concrete graph with
an isolated supplied node. -/
theorem claim_C7_witness :
    (get_ising_gamma 1 [0, 1, 7] [(0, 1)]).map
        (fun hJ => (hJ.1.map Prod.fst, hJ.2.map Prod.fst))
      = some ((create_graph [(0, 1)]).nodes, [(0, 1)]) :=
  (claim_C7 1 [0, 1, 7] [(0, 1)] (by decide) (by decide)).1

/-- Claim C8, counterexample to the claim as stated: on the edge list
`[(0, 1)]` with both partition sides empty, the scorer raises nothing
and returns the count 0, silently omitting the edge. -/
theorem claim_C8_counterexample : max_cuts [(0, 1)] [] [] = 0 := by decide

/-- Claim C8 (amended): the cut scorer is total and does not raise; an
edge whose endpoints are missing from both sides of the partition
contributes nothing to the returned count (it is silently omitted). -/
theorem claim_C8 (e : Edge) (edges : List Edge) (set_1 set_2 : List Nat)
    (h1 : e.1 ∉ set_1) (h2 : e.1 ∉ set_2) (h3 : e.2 ∉ set_1) (h4 : e.2 ∉ set_2) :
    max_cuts (e :: edges) set_1 set_2 = max_cuts edges set_1 set_2 := by
  rw [max_cuts_eq_countP, max_cuts_eq_countP, List.countP_cons]
  simp [h1, h3]

/-- Claim C8, witness: an edge with endpoints in neither side is skipped
on a concrete input. -/
theorem claim_C8_witness :
    max_cuts [(7, 8), (0, 1)] [0] [1] = max_cuts [(0, 1)] [0] [1] :=
  claim_C8 (7, 8) [(0, 1)] [0] [1] (by decide) (by decide) (by decide) (by decide)

/-- Claim C9: for every edge list and every 0/1 assignment covering the
node list, the cut count of the decoded partition is unchanged by a
global bit-flip of the assignment (equivalently, by swapping `set_1`
and `set_2`). -/
theorem claim_C9 (edges : List Edge) (nodes : List Node) (sample : Dict Node Int)
    (hvals : ∀ n ∈ nodes, dictGet? sample n = some 0 ∨ dictGet? sample n = some 1) :
    cutOfSample edges nodes sample = cutOfSample edges nodes (flipDict sample) := by
  cases hr : resultList sample nodes with
  | none =>
    exfalso
    rcases (resultList_eq_none_iff sample nodes).mp hr with ⟨n, hn, hnone⟩
    rcases hvals n hn with h | h <;> rw [hnone] at h <;> cases h
  | some r =>
    have hv := resultList_vals sample nodes r hvals hr
    unfold cutOfSample decodeSets
    rw [resultList_flipDict, hr]
    simp only [Option.map_some']
    rw [splitSets_flip r hv]
    cases hs : splitSets r with
    | mk s1 s2 => simp [max_cuts_swap edges s1 s2]

/-- Claim C9, witness: bit-flip invariance on a concrete assignment. -/
theorem claim_C9_witness :
    cutOfSample [(0, 1), (1, 2)] [0, 1, 2] [(0, 1), (1, 0), (2, 1)]
      = cutOfSample [(0, 1), (1, 2)] [0, 1, 2] (flipDict [(0, 1), (1, 0), (2, 1)]) :=
  claim_C9 [(0, 1), (1, 2)] [0, 1, 2] [(0, 1), (1, 0), (2, 1)] (by decide)

/-- Claim C10: whenever some edge references an endpoint not contained in
the supplied node list, the QUBO builder fails (the degree lookup in the
diagonal pass raises `KeyError`, modelled as `none`) rather than
returning a model. -/
theorem claim_C10 (nodes : List Node) (edges : List Edge)
    (h : ∃ e ∈ edges, e.1 ∉ nodes ∨ e.2 ∉ nodes) :
    get_qubo nodes edges = none := by
  rcases h with ⟨e, he, hend⟩
  have hn : ∃ n, n ∈ (create_graph edges).nodes ∧ n ∉ nodes := by
    rcases hend with h' | h'
    · exact ⟨e.1, (mem_nodes_create_graph edges e.1).mpr ⟨e, he, Or.inl rfl⟩, h'⟩
    · exact ⟨e.2, (mem_nodes_create_graph edges e.2).mpr ⟨e, he, Or.inr rfl⟩, h'⟩
  rcases hn with ⟨n, hnG, hnN⟩
  show ((create_graph edges).nodes.foldlM (fun Q i =>
        (dictGet? (quboDegrees nodes edges) i).map
          (fun di : Nat => dictInsert Q (i, i) (-(di : Int))))
      ((create_graph edges).edges.foldl (fun Q e => dictInsert Q e 2) [])) = none
  apply foldlM_map_eq_none
  refine ⟨n, hnG, ?_⟩
  rw [quboDegrees, quboDeg_foldl_lookup, dictGet?_fromkeys]
  simp [hnN]

/-- Claim C10, witness: a concrete edge endpoint outside the node list
makes the QUBO builder fail. -/
theorem claim_C10_witness : get_qubo [0, 1] [(0, 1), (1, 2)] = none :=
  claim_C10 [0, 1] [(0, 1), (1, 2)] (by decide)

end MaxCut
